import Mathlib

/-!
Verification development for the anchr WSM protocol core.

The Rust sources are shallowly embedded: pure functions become Lean
functions, global mutable state (message-ID pool, pending chunk hashes,
the file system) is passed explicitly, and fallible operations return
`Option`/`Except`.  Byte sequences are `List Nat` (each entry a byte
value); UTF-8 text payloads are bridged through character code points,
which is exact for the ASCII data the protocol carries.  SHA-256 is kept
abstract: the embedded operations take the digest function as an explicit
parameter, since every property of interest is parametric in the hash.
-/

deriving instance DecidableEq for Except

namespace Anchr

abbrev Bytes := List Nat

/-- Bytes of a UTF-8 string, modelled as character code points
(exact for ASCII content such as tokens, hashes and JSON). -/
def strToBytes (s : String) : Bytes := s.data.map Char.toNat

/-- Decode stored bytes back to text (inverse of `strToBytes` on ASCII). -/
def bytesToStr (bs : Bytes) : String := String.mk (bs.map Char.ofNat)

/-- Lowercase hexadecimal digit for a value below 16. -/
def hexDigit (n : Nat) : Char :=
  if n < 10 then Char.ofNat (48 + n) else Char.ofNat (87 + n)

/-- `hex::encode`: lowercase hex of a byte string, two digits per byte. -/
def hexEncode (bs : Bytes) : String :=
  String.mk (bs.foldr (fun b acc => hexDigit (b / 16 % 16) :: hexDigit (b % 16) :: acc) [])

/-- Little-endian value of a byte sequence (`u64::from_le_bytes`). -/
def leToNat : Bytes → Nat
  | [] => 0
  | b :: rest => b + 256 * leToNat rest

/-! ## WSM header (src/wsm/header.rs)

The checked-in `header.rs` is an older revision of the module: the rest of
the tree also uses `WsmHeader::with_reserved`, `WsmHeader::is_final`,
`RESERVED_FINAL_FLAG` and `OPCODE_ERROR_FATAL`, which are absent from it.
Those members are modelled from the spec (byte 3 value 0xFF marks the
final frame; opcode 0xFF is the fatal error). -/

/-- `PayloadType::Json as u8` -/
def PayloadType.Json : Nat := 0x01
/-- `PayloadType::Bincode as u8` -/
def PayloadType.Bincode : Nat := 0x02
/-- `PayloadType::Raw as u8` -/
def PayloadType.Raw : Nat := 0x03

/-- Modelled from the spec: `RESERVED_FINAL_FLAG` (reserved byte value 0xFF
marks the final frame of a logical exchange), missing from the checked-in
`header.rs` revision but used throughout the tree. -/
def RESERVED_FINAL_FLAG : Nat := 0xFF

/-- Modelled from the spec: `OPCODE_ERROR_FATAL` (opcode 0xFF, fatal error
frame), missing from the checked-in `header.rs` revision. -/
def OPCODE_ERROR_FATAL : Nat := 0xFF

/-- The 8-byte WSM header fields (`WsmHeader`). -/
structure WsmHeader where
  opcode : Nat
  message_id : Nat
  payload_type : Nat
  reserved : Nat
  payload_len : Nat
deriving DecidableEq

/-- Modelled from the spec: `WsmHeader::with_reserved` builds a header with
an explicit reserved byte (used by every final-flagged reply in the tree;
missing from the checked-in `header.rs` revision). -/
def WsmHeader.with_reserved (opcode message_id payload_type payload_len reserved : Nat) :
    WsmHeader :=
  ⟨opcode, message_id, payload_type, reserved, payload_len⟩

/-- `WsmHeader::new`: reserved byte zero. -/
def WsmHeader.mkNew (opcode message_id payload_type payload_len : Nat) : WsmHeader :=
  ⟨opcode, message_id, payload_type, 0, payload_len⟩

/-- Modelled from the spec: `is_final() ≡ reserved == 0xFF`. -/
def WsmHeader.is_final (h : WsmHeader) : Bool := h.reserved == RESERVED_FINAL_FLAG

/-- A frame as placed on the send queue: header plus payload bytes. -/
structure Frame where
  header : WsmHeader
  payload : Bytes
deriving DecidableEq

/-! ## Auth gate (src/quic/auth.rs, src/wsm/endpoints.rs) -/

/-- Per-connection authentication state. -/
inductive AuthState where
  | Unauthenticated
  | Authenticated
deriving DecidableEq

/-- `auth::send_unauthorized_response`: the single fatal frame sent to an
unauthenticated client that used a gated opcode. -/
def send_unauthorized_response (msg_id : Nat) : Frame :=
  let reason := strToBytes "Unauthenticated"
  { header := WsmHeader.with_reserved OPCODE_ERROR_FATAL msg_id PayloadType.Raw
      reason.length RESERVED_FINAL_FLAG
    payload := reason }

/-- The handler a server dispatch routes to (the handlers themselves send
their own frames; `dispatch_server` only sends in the gate branch). -/
inductive ServerHandler where
  | ping
  | auth
  | list
  | uploadInit
  | workerAlloc
  | finalize
deriving DecidableEq

/-- `ControlFlow` outcome of one dispatch step. -/
inductive Flow where
  | Break
  | Continue
deriving DecidableEq

/-- `endpoints::dispatch_server`: routing of one control-stream header.
Returns the frames sent by the dispatcher itself, the handler selected
(none in the gate branch and for unknown opcodes), and the loop flow.
`authOk` stands for the boolean result of `auth::handle_auth_request`,
which decides the flow in the 0x03 branch only. -/
def dispatch_server (header : WsmHeader) (state : AuthState) (authOk : Bool) :
    List Frame × Option ServerHandler × Flow :=
  if state = AuthState.Unauthenticated ∧ ¬(header.opcode = 0x01 ∨ header.opcode = 0x03) then
    ([send_unauthorized_response header.message_id], none, Flow.Break)
  else if header.opcode = 0x01 then ([], some ServerHandler.ping, Flow.Continue)
  else if header.opcode = 0x03 then
    ([], some ServerHandler.auth, if authOk then Flow.Continue else Flow.Break)
  else if header.opcode = 0x05 then ([], some ServerHandler.list, Flow.Continue)
  else if header.opcode = 0x06 then ([], some ServerHandler.uploadInit, Flow.Continue)
  else if header.opcode = 0x07 then ([], some ServerHandler.workerAlloc, Flow.Continue)
  else if header.opcode = 0x10 then ([], some ServerHandler.finalize, Flow.Continue)
  else ([], none, Flow.Continue)

/-! ## Message-ID pool (src/wsm/msg_id.rs)

The process-wide `MSG_ID_POOL : Mutex<HashSet<u8>>` is passed explicitly
as a `Finset (Fin 256)`.  The unbounded random loop of
`create_new_msg_id` is modelled by an explicit stream of draws: the Lean
function scans the draw list for the first identifier not already in the
pool, and returns `none` if the list is exhausted (standing for the loop
not having terminated yet), exactly as it returns `none` up front when
the pool already holds all 256 identifiers. -/

/-- `msg_id::create_new_msg_id`, with the random source made explicit. -/
def create_new_msg_id (pool : Finset (Fin 256)) (draws : List (Fin 256)) :
    Option (Fin 256 × Finset (Fin 256)) :=
  if 256 ≤ pool.card then none
  else
    match draws.find? (fun d => decide (d ∉ pool)) with
    | some d => some (d, insert d pool)
    | none => none

/-- `msg_id::remove_msg_id`: remove if present, report presence. -/
def remove_msg_id (pool : Finset (Fin 256)) (id : Fin 256) : Finset (Fin 256) × Bool :=
  (pool.erase id, decide (id ∈ pool))

/-- `msg_id::clear_msg_id_pool`: clears the pool (logging aside); its Rust
signature returns `()`, which the second component records. -/
def clear_msg_id_pool (pool : Finset (Fin 256)) : Finset (Fin 256) × Unit :=
  if pool ≠ ∅ then ((∅ : Finset (Fin 256)), ()) else (pool, ())

/-! ## Configuration (src/setup/config.rs) -/

/-- One configured volume (`RfsConfig`). -/
structure RfsConfig where
  dev_name : String
  bind_path : String
deriving DecidableEq

/-- The slice of `Config` the verified core reads (`rfs` volume table). -/
structure Config where
  rfs : Option (List RfsConfig)
deriving DecidableEq

/-! ## Path resolution (src/rfs/upload.rs, resolve_and_validate_path)

Rust `Path::components` on Unix, without prefixes: a leading `/` yields
`RootDir`; the remaining slash-separated parts skip empty strings and
`.` (except a leading `.`, which yields `CurDir`); `..` is `ParentDir`.
Resolved paths (`PathBuf`) are modelled as segment lists, with
`PathBuf::from(bind_path)` as the singleton list and `join`/`push` as
appending a segment. -/

/-- A parsed path component (`std::path::Component`, Unix, no prefix). -/
inductive PathComponent where
  | rootDir
  | curDir
  | parentDir
  | normal (s : String)
deriving DecidableEq

/-- Split a character list on `/`, keeping empty parts (the separator
handling of the Rust path parser). -/
def splitSlashAux : List Char → List Char → List String
  | [], acc => [String.mk acc.reverse]
  | c :: rest, acc =>
    if c = '/' then String.mk acc.reverse :: splitSlashAux rest []
    else splitSlashAux rest (c :: acc)

/-- Slash-separated parts of a string. -/
def splitSlash (s : String) : List String := splitSlashAux s.data []

/-- Non-leading components of a slash-split body: empty and `.` parts are
skipped, `..` is `ParentDir`, anything else is `Normal`. -/
def bodyComps : List String → List PathComponent
  | [] => []
  | p :: rest =>
    if p = "" ∨ p = "." then bodyComps rest
    else (if p = ".." then PathComponent.parentDir else PathComponent.normal p) :: bodyComps rest

/-- `Path::new(s).components()` for a Unix path without prefix. -/
def pathComponents (s : String) : List PathComponent :=
  match s.data with
  | [] => []
  | c :: _ =>
    if c = '/' then PathComponent.rootDir :: bodyComps (splitSlash s)
    else
      match splitSlash s with
      | [] => []
      | p :: rest =>
        if p = "." then PathComponent.curDir :: bodyComps rest else bodyComps (p :: rest)

/-- An absolute path as a list of joined segments; the head segment is the
volume's configured `bind_path` string. -/
abbrev FsPath := List String

/-- The `for component in components` tail loop of
`resolve_and_validate_path`: push `Normal` names, reject anything else. -/
def appendComps (base : FsPath) : List PathComponent → Except String FsPath
  | [] => Except.ok base
  | PathComponent.normal n :: rest => appendComps (base ++ [n]) rest
  | _ :: _ => Except.error "Invalid path component in target_dir."

/-- `upload::resolve_and_validate_path`.  The source unwraps `cfg.rfs`
(panicking when the table is absent); the panic is surfaced here as a
distinguished error, unreachable for configs with the table present. -/
def resolve_and_validate_path (target_dir : String) (cfg : Config) : Except String FsPath :=
  match pathComponents target_dir with
  | PathComponent.rootDir :: rest =>
    match rest with
    | [] => Except.error "target_dir is missing dev_name."
    | c :: rest2 =>
      match c with
      | PathComponent.normal dev_name =>
        match cfg.rfs with
        | none => Except.error "panic: cfg.rfs unwrapped while absent"
        | some vols =>
          match vols.find? (fun v => decide (v.dev_name = dev_name)) with
          | none => Except.error "Device not found on server."
          | some vol => appendComps [vol.bind_path] rest2
      | _ => Except.error "Invalid dev_name in target_dir."
  | _ => Except.error "Invalid target_dir format. Must start with root."

/-! ## File-system model

Explicit state for the tokio_fs calls the upload path performs.  Files
are an association list from path to content bytes; directories are a
list of paths.  `try_exists` sees files and directories alike; reading a
path that is only a directory fails; `write` creates or truncates;
`remove_file` ignores errors (`.ok()` at every call site); and
`remove_dir_all` removes every entry at or below the given path.
`create_dir_all` records the directory itself (parent entries are never
queried by the embedded code). -/

structure Fs where
  files : List (FsPath × Bytes)
  dirs : List FsPath
deriving DecidableEq

/-- `tokio_fs::read` (and `File::open` + read-to-end). -/
def Fs.readFile (fs : Fs) (p : FsPath) : Option Bytes :=
  (fs.files.find? (fun e => decide (e.1 = p))).map (·.2)

/-- `tokio_fs::try_exists`: true for files and directories. -/
def Fs.tryExists (fs : Fs) (p : FsPath) : Bool :=
  (fs.readFile p).isSome || fs.dirs.any (fun d => decide (d = p))

/-- `tokio_fs::write` / `File::create` + `write_all`: create or truncate. -/
def Fs.writeFile (fs : Fs) (p : FsPath) (c : Bytes) : Fs :=
  { fs with files := (p, c) :: fs.files.filter (fun e => !decide (e.1 = p)) }

/-- `tokio_fs::File::create`: create or truncate to empty. -/
def Fs.createFile (fs : Fs) (p : FsPath) : Fs := fs.writeFile p []

/-- `tokio_fs::remove_file(...).ok()`: drop the file entry if present. -/
def Fs.removeFile (fs : Fs) (p : FsPath) : Fs :=
  { fs with files := fs.files.filter (fun e => !decide (e.1 = p)) }

/-- `q` lies at or below `p` (used by `remove_dir_all`). -/
def FsPath.under (q p : FsPath) : Bool := decide (q.take p.length = p)

/-- `tokio_fs::remove_dir_all(...)`: drop every entry at or below `p`. -/
def Fs.removeDirAll (fs : Fs) (p : FsPath) : Fs :=
  { files := fs.files.filter (fun e => !FsPath.under e.1 p)
    dirs := fs.dirs.filter (fun d => !FsPath.under d p) }

/-- `tokio_fs::create_dir_all`: record the directory. -/
def Fs.createDirAll (fs : Fs) (p : FsPath) : Fs :=
  { fs with dirs := p :: fs.dirs }

/-- `tokio_fs::read_to_string`. -/
def Fs.readToString (fs : Fs) (p : FsPath) : Option String :=
  (fs.readFile p).map bytesToStr

/-- An ASCII whitespace character (the fragment of `str::trim`'s Unicode
whitespace that hash files can contain). -/
def isWsChar (c : Char) : Bool := c = ' ' || c = '\n' || c = '\t' || c = '\r'

/-- `str::trim`: strip whitespace from both ends. -/
def strTrim (s : String) : String :=
  String.mk (((s.data.dropWhile isWsChar).reverse.dropWhile isWsChar).reverse)

/-! ## Upload metadata and preparation (src/rfs/mod.rs, src/rfs/upload.rs) -/

/-- `UploadMetadata` (JSON payload of upload init / finalize). -/
structure UploadMetadata where
  target_dir : String
  file_name : String
  file_size : Nat
  file_hash : String
deriving DecidableEq

/-- `PreparationResult`. -/
inductive PreparationResult where
  | New
  | Resumable
deriving DecidableEq

/-- The stale-upload cleanup inside `prepare_upload_directory`: remove
`.lock` and `.hash`, and the `.tmp` tree when it exists. -/
def cleanupStale (fs : Fs) (lock_file_path hash_file_path tmp_dir_path : FsPath) : Fs :=
  let fs1 := (fs.removeFile lock_file_path).removeFile hash_file_path
  if fs1.tryExists tmp_dir_path then fs1.removeDirAll tmp_dir_path else fs1

/-- The creation tail of `prepare_upload_directory`: `mkdir -p` of the
target, an empty `.lock`, a `.hash` holding the request hash, and the
`.tmp` directory; returns New. -/
def prepareCreate (final_path : FsPath) (metadata : UploadMetadata) (fsc : Fs) :
    Except String PreparationResult × Fs :=
  (Except.ok PreparationResult.New,
    (((fsc.createDirAll final_path).createFile
        (final_path ++ [metadata.file_name ++ ".lock"])).writeFile
        (final_path ++ [metadata.file_name ++ ".hash"]) (strToBytes metadata.file_hash)).createDirAll
      (final_path ++ [metadata.file_name ++ ".tmp"]))

/-- `upload::prepare_upload_directory`, with the file system threaded
through.  The returned state reflects every mutation performed before the
function returned. -/
def prepare_upload_directory (metadata : UploadMetadata) (cfg : Config) (fs : Fs) :
    Except String PreparationResult × Fs :=
  match resolve_and_validate_path metadata.target_dir cfg with
  | Except.error e => (Except.error e, fs)
  | Except.ok final_path =>
    if fs.tryExists (final_path ++ [metadata.file_name]) then
      (Except.error ("File " ++ metadata.file_name ++ " already exists at the target location."),
        fs)
    else if fs.tryExists (final_path ++ [metadata.file_name ++ ".lock"]) then
      match fs.readToString (final_path ++ [metadata.file_name ++ ".hash"]) with
      | none => (Except.error "Failed to read existing hash file.", fs)
      | some existing_hash =>
        if strTrim existing_hash = metadata.file_hash then
          (Except.ok PreparationResult.Resumable, fs)
        else
          prepareCreate final_path metadata
            (cleanupStale fs (final_path ++ [metadata.file_name ++ ".lock"])
              (final_path ++ [metadata.file_name ++ ".hash"])
              (final_path ++ [metadata.file_name ++ ".tmp"]))
    else prepareCreate final_path metadata fs

/-! ## Volume listing (src/rfs/list.rs) -/

/-- `serde_json::to_string` for one `RfsConfig` (declared field order;
string escaping is not modelled — volume names are plain identifiers). -/
def rfsConfigJson (v : RfsConfig) : String :=
  "\x7b\"dev_name\":\"" ++ v.dev_name ++ "\",\"bind_path\":\"" ++ v.bind_path ++ "\"\x7d"

/-- Comma-join of JSON items. -/
def joinComma : List String → String
  | [] => ""
  | [x] => x
  | x :: xs => x ++ "," ++ joinComma xs

/-- `serde_json::to_string` for the `Vec<RfsConfig>`. -/
def rfsListJson (l : List RfsConfig) : String :=
  "[" ++ joinComma (l.map rfsConfigJson) ++ "]"

/-- `list::handle_request`: the frame a list request (0x05) is answered
with.  The source unwraps `cfg.rfs`, panicking when the table is absent;
that outcome (no frame is ever sent) is `none`. -/
def list_handle_request (message_id : Nat) (cfg : Config) : Option Frame :=
  match cfg.rfs with
  | none => none
  | some l =>
    let payload := strToBytes (rfsListJson l)
    some { header := WsmHeader.with_reserved 0x04 message_id PayloadType.Json
             payload.length RESERVED_FINAL_FLAG
           payload := payload }

/-! ## Server-side worker stream (src/rfs/worker.rs)

The per-stream state is the `PendingChunkHashes` map plus the file
system.  SHA-256 digests are abstracted by an explicit `sha` parameter
(32-byte digest of a byte string); payloads arrive as raw byte lists.
The `.unwrap()` on `resolve_and_validate_path` in both handlers panics
when resolution fails; that outcome is the outer `none`.  An inner
`none` reply means the handler returned without sending a frame (bad
payload length). -/

/-- `CHUNK_SIZE`: 512 KiB. -/
def CHUNK_SIZE : Nat := 512 * 1024

/-- Per-worker-stream `PendingChunkHashes` map (`HashMap<u64, [u8; 32]>`),
as an association list. -/
abbrev PendingHashes := List (Nat × Bytes)

/-- `HashMap::get`-style lookup. -/
def pendingLookup (m : PendingHashes) (k : Nat) : Option Bytes :=
  (m.find? (fun e => decide (e.1 = k))).map (·.2)

/-- `HashMap::insert` (replacing any previous binding). -/
def pendingInsert (m : PendingHashes) (k : Nat) (v : Bytes) : PendingHashes :=
  (k, v) :: m.filter (fun e => !decide (e.1 = k))

/-- `HashMap::remove`: the removed value and the remaining map. -/
def pendingRemove (m : PendingHashes) (k : Nat) : Option Bytes × PendingHashes :=
  (pendingLookup m k, m.filter (fun e => !decide (e.1 = k)))

/-- State carried by one server worker stream. -/
structure WorkerSt where
  fs : Fs
  pending : PendingHashes
deriving DecidableEq

/-- `worker::handle_chunk_inquiry` (opcode 0x08). -/
def handle_chunk_inquiry (payload : Bytes) (cfg : Config) (meta : UploadMetadata)
    (sha : Bytes → Bytes) (st : WorkerSt) : Option (Option Frame × WorkerSt) :=
  if payload.length ≠ 40 then some (none, st)
  else
    let chunk_id := leToNat (payload.take 8)
    let client_hash := payload.drop 8
    match resolve_and_validate_path meta.target_dir cfg with
    | Except.error _ => none
    | Except.ok base_path =>
      let tmp_dir_path := base_path ++ [meta.file_name ++ ".tmp"]
      let chunk_path := tmp_dir_path ++ ["chunk_" ++ toString chunk_id]
      let skip : Bool :=
        st.fs.tryExists chunk_path &&
          (match st.fs.readFile chunk_path with
           | some data => decide (sha data = client_hash)
           | none => false)
      let response_code : Nat := if skip then 2 else 1
      let pending' :=
        if response_code = 1 then pendingInsert st.pending chunk_id client_hash else st.pending
      let response_header :=
        if skip then WsmHeader.with_reserved 0x00 0 PayloadType.Raw 1 RESERVED_FINAL_FLAG
        else WsmHeader.mkNew 0x00 0 PayloadType.Raw 1
      some (some { header := response_header, payload := [response_code] },
        { st with pending := pending' })

/-- The header-only reply of `handle_chunk_data`. -/
def dataReply (final : Bool) : Frame :=
  { header := WsmHeader.with_reserved 0x00 0 PayloadType.Raw 0
      (if final then RESERVED_FINAL_FLAG else 0)
    payload := [] }

/-- `worker::handle_chunk_data` (opcode 0x09). -/
def handle_chunk_data (payload : Bytes) (cfg : Config) (meta : UploadMetadata)
    (sha : Bytes → Bytes) (st : WorkerSt) : Option (Option Frame × WorkerSt) :=
  if payload.length ≤ 8 then some (none, st)
  else
    let chunk_id := leToNat (payload.take 8)
    let chunk_data := payload.drop 8
    let removed := pendingRemove st.pending chunk_id
    match removed.1 with
    | some expected_hash =>
      if sha chunk_data = expected_hash then
        match resolve_and_validate_path meta.target_dir cfg with
        | Except.error _ => none
        | Except.ok base_path =>
          let tmp_dir_path := base_path ++ [meta.file_name ++ ".tmp"]
          let chunk_path := tmp_dir_path ++ ["chunk_" ++ toString chunk_id]
          some (some (dataReply true),
            { fs := st.fs.writeFile chunk_path chunk_data, pending := removed.2 })
      else some (some (dataReply false), { st with pending := removed.2 })
    | none => some (some (dataReply false), { st with pending := removed.2 })

/-! ## Finalizer (src/rfs/verify.rs, assemble_and_verify) -/

/-- `total_chunks = (file_size as f64 / CHUNK_SIZE as f64).ceil() as u64`,
the exact ceiling division (the two agree on every size below 2^53). -/
def totalChunks (file_size : Nat) : Nat := (file_size + CHUNK_SIZE - 1) / CHUNK_SIZE

/-- The assembly loop: read each chunk in order, appending to the final
file.  `Sum.inl` carries the state at a failed read (the partially
written final file remains); `Sum.inr` the final state and the content
written. -/
def assembleChunks (tmp_dir_path final_file_path : FsPath) :
    List Nat → Fs → Bytes → Fs ⊕ (Fs × Bytes)
  | [], fs, acc => Sum.inr (fs, acc)
  | i :: rest, fs, acc =>
    match fs.readFile (tmp_dir_path ++ ["chunk_" ++ toString i]) with
    | some data =>
      let acc' := acc ++ data
      assembleChunks tmp_dir_path final_file_path rest (fs.writeFile final_file_path acc') acc'
    | none => Sum.inl fs

/-- `verify::assemble_and_verify`, with the digest function and file
system explicit.  Returns the success flag and the resulting state.
(The source's local path bindings — `final_file_path`, `tmp_dir_path`
and the cleanup paths — are inlined at their use sites.) -/
def assemble_and_verify (metadata : UploadMetadata) (cfg : Config) (sha : Bytes → Bytes)
    (fs : Fs) : Bool × Fs :=
  match resolve_and_validate_path metadata.target_dir cfg with
  | Except.error _ => (false, fs)
  | Except.ok final_path =>
    if (List.range (totalChunks metadata.file_size)).all
        (fun i => fs.tryExists
          (final_path ++ [metadata.file_name ++ ".tmp"] ++ ["chunk_" ++ toString i])) then
      match assembleChunks (final_path ++ [metadata.file_name ++ ".tmp"])
          (final_path ++ [metadata.file_name]) (List.range (totalChunks metadata.file_size))
          (fs.createFile (final_path ++ [metadata.file_name])) [] with
      | Sum.inl fsp => (false, fsp)
      | Sum.inr (fs1, _) =>
        match fs1.readFile (final_path ++ [metadata.file_name]) with
        | none => (false, fs1)
        | some content =>
          if hexEncode (sha content) = metadata.file_hash then
            (true, ((fs1.removeFile (final_path ++ [metadata.file_name ++ ".lock"])).removeFile
              (final_path ++ [metadata.file_name ++ ".hash"])).removeDirAll
              (final_path ++ [metadata.file_name ++ ".tmp"]))
          else (false, fs1)
    else (false, fs)

/-- The concatenation of the stored chunks for the given indices, in
order; `none` when one of them cannot be read. -/
def chunkConcat (fs : Fs) (tmp_dir_path : FsPath) : List Nat → Option Bytes
  | [] => some []
  | i :: rest =>
    match fs.readFile (tmp_dir_path ++ ["chunk_" ++ toString i]),
        chunkConcat fs tmp_dir_path rest with
    | some d, some r => some (d ++ r)
    | _, _ => none

/-! ## Helper lemmas on association lists, paths and the file system -/

section Helpers

variable {α β : Type} [DecidableEq α]

theorem find?_key_filter (l : List (α × β)) (P : α → Bool) (j : α) :
    (l.filter (fun e => !P e.1)).find? (fun e => decide (e.1 = j)) =
      if P j then none else l.find? (fun e => decide (e.1 = j)) := by
  induction l with
  | nil => simp
  | cons a t ih =>
    by_cases ha : P a.1 = true
    · rw [List.filter_cons_of_neg (by simp [ha]), ih]
      by_cases hj : P j = true
      · rw [if_pos hj, if_pos hj]
      · have haj : ¬(a.1 = j) := fun h => hj (h ▸ ha)
        rw [if_neg hj, if_neg hj, List.find?_cons_of_neg _ (by simpa using haj)]
    · rw [List.filter_cons_of_pos (by simp [ha])]
      by_cases haj : a.1 = j
      · have hj : ¬(P j = true) := fun h => ha (haj ▸ h)
        rw [if_neg hj, List.find?_cons_of_pos _ (by simpa using haj),
          List.find?_cons_of_pos _ (by simpa using haj)]
      · rw [List.find?_cons_of_neg _ (by simpa using haj), ih]
        by_cases hj : P j = true
        · rw [if_pos hj, if_pos hj]
        · rw [if_neg hj, if_neg hj, List.find?_cons_of_neg _ (by simpa using haj)]

theorem any_key_filter (l : List α) (P : α → Bool) (j : α) :
    (l.filter (fun d => !P d)).any (fun d => decide (d = j)) =
      if P j then false else l.any (fun d => decide (d = j)) := by
  induction l with
  | nil => simp
  | cons a t ih =>
    by_cases ha : P a = true
    · rw [List.filter_cons_of_neg (by simp [ha]), ih]
      by_cases hj : P j = true
      · rw [if_pos hj, if_pos hj]
      · have haj : decide (a = j) = false := by
          simp only [decide_eq_false_iff_not]
          exact fun h => hj (h ▸ ha)
        rw [if_neg hj, if_neg hj, List.any_cons, haj]
        simp
    · rw [List.filter_cons_of_pos (by simp [ha]), List.any_cons, List.any_cons, ih]
      by_cases hj : P j = true
      · have haj : decide (a = j) = false := by
          simp only [decide_eq_false_iff_not]
          exact fun h => ha (h ▸ hj)
        rw [if_pos hj, if_pos hj, haj]
        simp
      · rw [if_neg hj, if_neg hj]

end Helpers

theorem readFile_writeFile (fs : Fs) (p : FsPath) (c : Bytes) (q : FsPath) :
    (fs.writeFile p c).readFile q = if q = p then some c else fs.readFile q := by
  unfold Fs.readFile Fs.writeFile
  by_cases h : q = p
  · subst h
    rw [List.find?_cons_of_pos _ (by simp)]
    simp
  · rw [List.find?_cons_of_neg _ (by simpa using Ne.symm h), if_neg h,
      find?_key_filter fs.files (fun x => decide (x = p)) q, if_neg (by simpa using h)]

theorem readFile_removeFile (fs : Fs) (p q : FsPath) :
    (fs.removeFile p).readFile q = if q = p then none else fs.readFile q := by
  unfold Fs.readFile Fs.removeFile
  by_cases h : q = p
  · rw [if_pos h, find?_key_filter fs.files (fun x => decide (x = p)) q,
      if_pos (by simpa using h)]
    rfl
  · rw [if_neg h, find?_key_filter fs.files (fun x => decide (x = p)) q,
      if_neg (by simpa using h)]

theorem readFile_removeDirAll (fs : Fs) (p q : FsPath) :
    (fs.removeDirAll p).readFile q =
      if FsPath.under q p then none else fs.readFile q := by
  unfold Fs.readFile Fs.removeDirAll
  by_cases h : FsPath.under q p = true
  · rw [if_pos h, find?_key_filter fs.files (fun x => FsPath.under x p) q, if_pos h]
    rfl
  · rw [if_neg h, find?_key_filter fs.files (fun x => FsPath.under x p) q, if_neg h]

theorem append_single_inj {fp : FsPath} {a b : String} :
    fp ++ [a] = fp ++ [b] ↔ a = b := by
  constructor
  · intro h
    have h2 := List.append_cancel_left h
    simpa using h2
  · intro h
    rw [h]

theorem strApp_inj (n : String) {a b : String} (h : n ++ a = n ++ b) : a = b := by
  have hd := congrArg String.data h
  simp only [String.data_append] at hd
  have h2 := List.append_cancel_left hd
  cases a
  cases b
  exact congrArg String.mk h2

theorem strApp_ne_of_ne (n : String) {a b : String} (h : a ≠ b) : n ++ a ≠ n ++ b :=
  fun he => h (strApp_inj n he)

theorem ne_strApp_of_ne_empty (n : String) {s : String} (h : s.data ≠ []) : n ≠ n ++ s := by
  intro he
  have hlen := congrArg (fun x => x.data.length) he
  simp only [String.data_append, List.length_append] at hlen
  exact h (List.length_eq_zero.mp (by omega))

theorem under_append_single (fp : FsPath) (a b : String) :
    FsPath.under (fp ++ [a]) (fp ++ [b]) = decide (a = b) := by
  unfold FsPath.under
  have hlen : (fp ++ [b]).length = fp.length + 1 := by simp
  rw [hlen]
  have htake : (fp ++ [a]).take (fp.length + 1) = fp ++ [a] := by
    have hl : (fp ++ [a]).length = fp.length + 1 := by simp
    rw [← hl, List.take_length]
  rw [htake]
  exact decide_eq_decide.mpr append_single_inj

theorem under_extend (tmp : FsPath) (c : String) :
    FsPath.under (tmp ++ [c]) tmp = true := by
  unfold FsPath.under
  simp [List.take_left]

theorem under_self (p : FsPath) : FsPath.under p p = true := by
  unfold FsPath.under
  simp [List.take_length]

theorem appendComps_ok (cs : List PathComponent) : ∀ (base : FsPath) (p : FsPath),
    appendComps base cs = Except.ok p ↔
      ∃ names : List String, cs = names.map PathComponent.normal ∧ p = base ++ names := by
  induction cs with
  | nil =>
    intro base p
    constructor
    · intro h
      refine ⟨[], rfl, ?_⟩
      have := Except.ok.inj h
      simp [← this]
    · rintro ⟨names, hcs, hp⟩
      have : names = [] := by
        cases names with
        | nil => rfl
        | cons a t => exact List.noConfusion hcs
      subst this
      simp only [List.append_nil] at hp
      rw [hp]
      rfl
  | cons c cs' ih =>
    intro base p
    cases c with
    | normal n =>
      constructor
      · intro h
        obtain ⟨ns, hcs, hp⟩ := (ih (base ++ [n]) p).mp h
        exact ⟨n :: ns, by simp [hcs], by simp [hp]⟩
      · rintro ⟨names, hcs, hp⟩
        cases names with
        | nil => exact List.noConfusion hcs
        | cons m ns =>
          simp only [List.map_cons, List.cons.injEq, PathComponent.normal.injEq] at hcs
          obtain ⟨hm, hns⟩ := hcs
          subst hm
          apply (ih (base ++ [n]) p).mpr
          exact ⟨ns, hns, by simp [hp]⟩
    | rootDir =>
      constructor
      · intro h
        exact Except.noConfusion h
      · rintro ⟨names, hcs, hp⟩
        cases names with
        | nil => exact List.noConfusion hcs
        | cons m ns =>
          simp only [List.map_cons, List.cons.injEq] at hcs
          exact PathComponent.noConfusion hcs.1
    | curDir =>
      constructor
      · intro h
        exact Except.noConfusion h
      · rintro ⟨names, hcs, hp⟩
        cases names with
        | nil => exact List.noConfusion hcs
        | cons m ns =>
          simp only [List.map_cons, List.cons.injEq] at hcs
          exact PathComponent.noConfusion hcs.1
    | parentDir =>
      constructor
      · intro h
        exact Except.noConfusion h
      · rintro ⟨names, hcs, hp⟩
        cases names with
        | nil => exact List.noConfusion hcs
        | cons m ns =>
          simp only [List.map_cons, List.cons.injEq] at hcs
          exact PathComponent.noConfusion hcs.1

/-! ## Claim theorems -/

/-- C2: for every received header whose connection auth state is
Unauthenticated and whose opcode is neither 0x01 (ping) nor 0x03 (auth),
the server dispatcher invokes no handler, sends exactly one frame with
opcode 0xFF, the request's message_id echoed, final flag 0xFF, and
payload the UTF-8 bytes of "Unauthenticated", and returns Break (on
which the dispatch loop in `service::handle_connection` closes the
connection). -/
theorem dispatch_server_unauth_gate (header : WsmHeader) (state : AuthState) (authOk : Bool)
    (hs : state = AuthState.Unauthenticated)
    (h1 : header.opcode ≠ 0x01) (h3 : header.opcode ≠ 0x03) :
    dispatch_server header state authOk =
      ([{ header := { opcode := 0xFF, message_id := header.message_id,
                      payload_type := PayloadType.Raw, reserved := 0xFF, payload_len := 15 }
          payload := strToBytes "Unauthenticated" }], none, Flow.Break) := by
  subst hs
  have hgate : AuthState.Unauthenticated = AuthState.Unauthenticated ∧
      ¬(header.opcode = 0x01 ∨ header.opcode = 0x03) := by
    exact ⟨rfl, by rintro (h | h) <;> [exact h1 h; exact h3 h]⟩
  unfold dispatch_server
  rw [if_pos hgate]
  have hlen : (strToBytes "Unauthenticated").length = 15 := by decide
  simp [send_unauthorized_response, WsmHeader.with_reserved, OPCODE_ERROR_FATAL,
    RESERVED_FINAL_FLAG, hlen]

/-- Witness for C2 at a concrete header (opcode 0x05, message id 0x2A). -/
theorem dispatch_server_unauth_gate_witness :
    dispatch_server ⟨0x05, 0x2A, PayloadType.Raw, 0, 0⟩ AuthState.Unauthenticated true =
      ([{ header := { opcode := 0xFF, message_id := 0x2A,
                      payload_type := PayloadType.Raw, reserved := 0xFF, payload_len := 15 }
          payload := strToBytes "Unauthenticated" }], none, Flow.Break) :=
  dispatch_server_unauth_gate ⟨0x05, 0x2A, PayloadType.Raw, 0, 0⟩
    AuthState.Unauthenticated true rfl (by decide) (by decide)

/-- C7: `create_new_msg_id` returns none exactly when the pool holds 256
IDs (given a draw stream that can produce a fresh ID whenever one
exists); otherwise it returns an ID not in the pool before the call, and
the pool afterwards is the previous pool plus that ID. -/
theorem create_new_msg_id_spec (pool : Finset (Fin 256)) (draws : List (Fin 256))
    (hdraws : pool.card < 256 → ∃ d ∈ draws, d ∉ pool) :
    (create_new_msg_id pool draws = none ↔ pool.card = 256) ∧
    (∀ id pool', create_new_msg_id pool draws = some (id, pool') →
      id ∉ pool ∧ pool' = insert id pool) := by
  have hcard : pool.card ≤ 256 := by
    have h := Finset.card_le_univ pool
    rwa [Fintype.card_fin] at h
  constructor
  · constructor
    · intro hnone
      by_contra hne
      have hlt : pool.card < 256 := lt_of_le_of_ne hcard hne
      obtain ⟨d, hd, hdp⟩ := hdraws hlt
      unfold create_new_msg_id at hnone
      rw [if_neg (by omega)] at hnone
      cases hfind : draws.find? (fun d => decide (d ∉ pool)) with
      | some d' => rw [hfind] at hnone; exact Option.noConfusion hnone
      | none =>
        have := List.find?_eq_none.mp hfind d hd
        simp only [decide_eq_true_eq] at this
        exact this hdp
    · intro hfull
      unfold create_new_msg_id
      rw [if_pos (le_of_eq hfull.symm)]
  · intro id pool' hsome
    unfold create_new_msg_id at hsome
    by_cases hge : 256 ≤ pool.card
    · rw [if_pos hge] at hsome; exact Option.noConfusion hsome
    · rw [if_neg hge] at hsome
      cases hfind : draws.find? (fun d => decide (d ∉ pool)) with
      | none => rw [hfind] at hsome; exact Option.noConfusion hsome
      | some d =>
        rw [hfind] at hsome
        have hpred := List.find?_some hfind
        simp only [decide_eq_true_eq] at hpred
        have h := Option.some.inj hsome
        have hid : d = id := congrArg Prod.fst h
        have hpool : insert d pool = pool' := congrArg Prod.snd h
        subst hid
        subst hpool
        exact ⟨hpred, rfl⟩

/-- Witness for C7: pool {0} with draw stream [0, 5]; the allocator skips
the colliding draw 0 and returns 5, inserting it. -/
theorem create_new_msg_id_spec_witness :
    (({0} : Finset (Fin 256)).card < 256 →
      ∃ d ∈ [(0 : Fin 256), 5], d ∉ ({0} : Finset (Fin 256))) ∧
    ((create_new_msg_id {0} [0, 5] = none ↔ ({0} : Finset (Fin 256)).card = 256) ∧
      (∀ id pool', create_new_msg_id {0} [0, 5] = some (id, pool') →
        id ∉ ({0} : Finset (Fin 256)) ∧ pool' = insert id ({0} : Finset (Fin 256)))) := by
  have hfresh : ∃ d ∈ [(0 : Fin 256), 5], d ∉ ({0} : Finset (Fin 256)) := by
    refine ⟨5, by simp, ?_⟩
    rw [Finset.mem_singleton]
    exact (by decide : ¬(5 : Fin 256) = 0)
  exact ⟨fun _ => hfresh, create_new_msg_id_spec {0} [0, 5] (fun _ => hfresh)⟩

/-- C8 counterexample: `clear_msg_id_pool` (the drain operation) returns
`()` only; its output on the pool {3} coincides with its output on the
empty pool, although the prior contents differ, so the previous contents
are not returned. -/
theorem clear_msg_id_pool_no_return :
    clear_msg_id_pool {(3 : Fin 256)} = clear_msg_id_pool (∅ : Finset (Fin 256)) ∧
    ({(3 : Fin 256)} : Finset (Fin 256)) ≠ (∅ : Finset (Fin 256)) := by
  constructor
  · unfold clear_msg_id_pool
    rw [if_pos (Finset.singleton_ne_empty (3 : Fin 256)), if_neg (by simp)]
  · exact Finset.singleton_ne_empty (3 : Fin 256)

/-- C8 amended: the drain operation leaves the pool empty (it does not
return the previous contents; its Rust signature returns `()`). -/
theorem clear_msg_id_pool_empties (pool : Finset (Fin 256)) :
    (clear_msg_id_pool pool).1 = ∅ := by
  unfold clear_msg_id_pool
  split
  · rfl
  · next h => simpa using not_ne_iff.mp h

/-- C9 counterexample: a server config in which no volumes are configured
(the rfs table is absent) makes the list handler panic on `unwrap`; no
frame is sent at all, instead of the claimed "[]" reply. -/
theorem list_handle_request_none_panics :
    (Config.mk none).rfs = none ∧ list_handle_request 5 (Config.mk none) = none := by
  decide

/-- C9 amended: for every server config whose rfs volume table is present
but empty, the list handler replies to a list request with exactly one
frame: opcode 0x04, the request's message_id, payload_type 0x01 (JSON),
reserved byte 0xFF (final), and the 2-byte payload "[]". -/
theorem list_handle_request_empty (id : Nat) (cfg : Config) (h : cfg.rfs = some []) :
    list_handle_request id cfg = some
      { header := { opcode := 0x04, message_id := id, payload_type := PayloadType.Json,
                    reserved := 0xFF, payload_len := 2 }
        payload := strToBytes "[]" } := by
  unfold list_handle_request
  rw [h]
  rfl

/-- C3: with the rfs volume table present, path resolution returns Ok(p)
iff the target's first component is the root separator, its second is a
normal name matching the dev_name of a configured volume (first match),
and every remaining component is a normal name; p is then that volume's
bind_path with the remaining names appended in order.  Any parent-dir or
other non-normal component falls outside this shape and is rejected. -/
theorem resolve_and_validate_path_spec (target_dir : String) (cfg : Config)
    (vols : List RfsConfig) (hrfs : cfg.rfs = some vols) (p : FsPath) :
    resolve_and_validate_path target_dir cfg = Except.ok p ↔
      ∃ dev names vol,
        pathComponents target_dir =
          PathComponent.rootDir :: PathComponent.normal dev ::
            List.map PathComponent.normal names ∧
        vols.find? (fun v => decide (v.dev_name = dev)) = some vol ∧
        p = vol.bind_path :: names := by
  unfold resolve_and_validate_path
  cases hpc : pathComponents target_dir with
  | nil =>
    constructor
    · intro h
      exact Except.noConfusion h
    · rintro ⟨dev, names, vol, hc, -, -⟩
      exact List.noConfusion hc
  | cons c rest =>
    cases c with
    | rootDir =>
      cases rest with
      | nil =>
        constructor
        · intro h
          exact Except.noConfusion h
        · rintro ⟨dev, names, vol, hc, -, -⟩
          have := (List.cons.injEq .. ▸ hc)
          exact List.noConfusion (congrArg List.tail hc)
      | cons c2 rest2 =>
        cases c2 with
        | normal dev =>
          rw [hrfs]
          dsimp only
          cases hfind : vols.find? (fun v => decide (v.dev_name = dev)) with
          | none =>
            constructor
            · intro h
              exact Except.noConfusion h
            · rintro ⟨dev', names, vol, hc, hfind', -⟩
              have h2 := congrArg List.tail hc
              simp only [List.tail_cons] at h2
              have hdev : PathComponent.normal dev = PathComponent.normal dev' :=
                (List.cons.injEq .. ▸ h2).1
              have : dev = dev' := PathComponent.normal.injEq .. ▸ hdev
              subst this
              rw [hfind] at hfind'
              exact Option.noConfusion hfind'
          | some vol =>
            rw [appendComps_ok rest2 [vol.bind_path] p]
            constructor
            · rintro ⟨names, hrest2, hp⟩
              refine ⟨dev, names, vol, ?_, hfind, ?_⟩
              · rw [hrest2]
              · simpa using hp
            · rintro ⟨dev', names, vol', hc, hfind', hp⟩
              have h2 := congrArg List.tail hc
              simp only [List.tail_cons] at h2
              have hdev : PathComponent.normal dev = PathComponent.normal dev' :=
                (List.cons.injEq .. ▸ h2).1
              have hde : dev = dev' := PathComponent.normal.injEq .. ▸ hdev
              subst hde
              rw [hfind] at hfind'
              have hvol : vol = vol' := Option.some.inj hfind'
              subst hvol
              have hrest2 : rest2 = List.map PathComponent.normal names :=
                (List.cons.injEq .. ▸ h2).2
              exact ⟨names, hrest2, by simp [hp]⟩
        | rootDir =>
          constructor
          · intro h
            exact Except.noConfusion h
          · rintro ⟨dev, names, vol, hc, -, -⟩
            have h2 := congrArg List.tail hc
            simp only [List.tail_cons] at h2
            exact PathComponent.noConfusion (List.cons.injEq .. ▸ h2).1
        | curDir =>
          constructor
          · intro h
            exact Except.noConfusion h
          · rintro ⟨dev, names, vol, hc, -, -⟩
            have h2 := congrArg List.tail hc
            simp only [List.tail_cons] at h2
            exact PathComponent.noConfusion (List.cons.injEq .. ▸ h2).1
        | parentDir =>
          constructor
          · intro h
            exact Except.noConfusion h
          · rintro ⟨dev, names, vol, hc, -, -⟩
            have h2 := congrArg List.tail hc
            simp only [List.tail_cons] at h2
            exact PathComponent.noConfusion (List.cons.injEq .. ▸ h2).1
    | curDir =>
      constructor
      · intro h
        exact Except.noConfusion h
      · rintro ⟨dev, names, vol, hc, -, -⟩
        exact PathComponent.noConfusion (List.cons.injEq .. ▸ hc).1
    | parentDir =>
      constructor
      · intro h
        exact Except.noConfusion h
      · rintro ⟨dev, names, vol, hc, -, -⟩
        exact PathComponent.noConfusion (List.cons.injEq .. ▸ hc).1
    | normal n =>
      constructor
      · intro h
        exact Except.noConfusion h
      · rintro ⟨dev, names, vol, hc, -, -⟩
        exact PathComponent.noConfusion (List.cons.injEq .. ▸ hc).1

/-- Witness for C3 at the concrete target "/data/x/y" over one volume. -/
theorem resolve_and_validate_path_spec_witness :
    (Config.mk (some [⟨"data", "/srv"⟩])).rfs = some [⟨"data", "/srv"⟩] ∧
    (resolve_and_validate_path "/data/x/y" (Config.mk (some [⟨"data", "/srv"⟩])) =
        Except.ok ["/srv", "x", "y"] ↔
      ∃ dev names vol,
        pathComponents "/data/x/y" =
          PathComponent.rootDir :: PathComponent.normal dev ::
            List.map PathComponent.normal names ∧
        List.find? (fun v => decide (v.dev_name = dev)) [(⟨"data", "/srv"⟩ : RfsConfig)] =
          some vol ∧
        (["/srv", "x", "y"] : FsPath) = vol.bind_path :: names) :=
  ⟨rfl, resolve_and_validate_path_spec "/data/x/y" (Config.mk (some [⟨"data", "/srv"⟩]))
    [⟨"data", "/srv"⟩] rfl ["/srv", "x", "y"]⟩

theorem bytesToStr_strToBytes (s : String) : bytesToStr (strToBytes s) = s := by
  unfold bytesToStr strToBytes
  rw [List.map_map]
  have : (Char.ofNat ∘ Char.toNat) = id := by
    funext c
    simp [Function.comp]
  rw [this, List.map_id]

theorem path_ne_of_suffix_ne (fp : FsPath) (n : String) {a b : String} (h : a ≠ b) :
    fp ++ [n ++ a] ≠ fp ++ [n ++ b] :=
  fun he => (strApp_ne_of_ne n h) (append_single_inj.mp he)

theorem path_ne_plain_suffix (fp : FsPath) (n : String) {s : String} (h : s.data ≠ []) :
    fp ++ [n] ≠ fp ++ [n ++ s] :=
  fun he => (ne_strApp_of_ne_empty n h) (append_single_inj.mp he)

theorem under_of_suffix (fp : FsPath) (n : String) {a b : String} (h : a ≠ b) :
    FsPath.under (fp ++ [n ++ a]) (fp ++ [n ++ b]) = false := by
  rw [under_append_single]
  simp only [decide_eq_false_iff_not]
  exact strApp_ne_of_ne n h

theorem readFile_createDirAll (fs : Fs) (p q : FsPath) :
    (fs.createDirAll p).readFile q = fs.readFile q := rfl

theorem dirs_writeFile (fs : Fs) (p : FsPath) (c : Bytes) :
    (fs.writeFile p c).dirs = fs.dirs := rfl

theorem dirs_removeFile (fs : Fs) (p : FsPath) :
    (fs.removeFile p).dirs = fs.dirs := rfl

/-- Post-state of the creation tail: New is returned, the lock file is
empty, the hash file holds the request hash, the target and `.tmp`
directories exist, and every other file is untouched. -/
theorem prepareCreate_post (fp : FsPath) (metadata : UploadMetadata) (fsc : Fs) :
    (prepareCreate fp metadata fsc).1 = Except.ok PreparationResult.New ∧
    (prepareCreate fp metadata fsc).2.readFile (fp ++ [metadata.file_name ++ ".lock"]) =
      some [] ∧
    (prepareCreate fp metadata fsc).2.readToString (fp ++ [metadata.file_name ++ ".hash"]) =
      some metadata.file_hash ∧
    fp ∈ (prepareCreate fp metadata fsc).2.dirs ∧
    (fp ++ [metadata.file_name ++ ".tmp"]) ∈ (prepareCreate fp metadata fsc).2.dirs ∧
    (∀ q, q ≠ fp ++ [metadata.file_name ++ ".lock"] →
      q ≠ fp ++ [metadata.file_name ++ ".hash"] →
      (prepareCreate fp metadata fsc).2.readFile q = fsc.readFile q) := by
  have hlh : fp ++ [metadata.file_name ++ ".lock"] ≠ fp ++ [metadata.file_name ++ ".hash"] :=
    path_ne_of_suffix_ne fp metadata.file_name (by decide)
  refine ⟨rfl, ?_, ?_, ?_, ?_, ?_⟩
  · unfold prepareCreate
    dsimp only
    rw [readFile_createDirAll, readFile_writeFile, if_neg hlh]
    unfold Fs.createFile
    rw [readFile_writeFile, if_pos rfl]
  · unfold prepareCreate Fs.readToString
    dsimp only
    rw [readFile_createDirAll, readFile_writeFile, if_pos rfl]
    simp [bytesToStr_strToBytes]
  · unfold prepareCreate Fs.createDirAll
    dsimp only
    right
    left
  · unfold prepareCreate Fs.createDirAll
    dsimp only
    left
  · intro q hql hqh
    unfold prepareCreate
    dsimp only
    rw [readFile_createDirAll, readFile_writeFile, if_neg hqh]
    unfold Fs.createFile
    rw [readFile_writeFile, if_neg hql, readFile_createDirAll]

/-- After the stale cleanup, no file remains at or below `.tmp`, provided
any file at or below `.tmp` implied the `.tmp` path was visible
(well-formedness of the incoming state). -/
theorem cleanupStale_no_tmp_files (fs : Fs) (fp : FsPath) (n : String)
    (hwf : ∀ e ∈ fs.files, FsPath.under e.1 (fp ++ [n ++ ".tmp"]) = true →
      fs.tryExists (fp ++ [n ++ ".tmp"]) = true) :
    ∀ q, FsPath.under q (fp ++ [n ++ ".tmp"]) = true →
      (cleanupStale fs (fp ++ [n ++ ".lock"]) (fp ++ [n ++ ".hash"])
        (fp ++ [n ++ ".tmp"])).readFile q = none := by
  intro q hq
  unfold cleanupStale
  dsimp only
  by_cases ht : ((fs.removeFile (fp ++ [n ++ ".lock"])).removeFile
      (fp ++ [n ++ ".hash"])).tryExists (fp ++ [n ++ ".tmp"]) = true
  · rw [if_pos ht, readFile_removeDirAll, if_pos hq]
  · rw [if_neg ht]
    cases hrf : ((fs.removeFile (fp ++ [n ++ ".lock"])).removeFile
        (fp ++ [n ++ ".hash"])).readFile q with
    | none => rfl
    | some c =>
      exfalso
      unfold Fs.readFile at hrf
      cases hfind : (((fs.removeFile (fp ++ [n ++ ".lock"])).removeFile
          (fp ++ [n ++ ".hash"])).files.find? (fun e => decide (e.1 = q))) with
      | none =>
        rw [hfind] at hrf
        exact Option.noConfusion hrf
      | some e =>
        have he_mem := List.mem_of_find?_eq_some hfind
        have he_key : e.1 = q := by
          have := List.find?_some hfind
          simpa using this
        have he_fs : e ∈ fs.files := by
          unfold Fs.removeFile at he_mem
          dsimp only at he_mem
          exact (List.mem_filter.mp (List.mem_filter.mp he_mem).1).1
        have htmp := hwf e he_fs (by rw [he_key]; exact hq)
        apply ht
        unfold Fs.tryExists at htmp ⊢
        rw [readFile_removeFile,
          if_neg (path_ne_of_suffix_ne fp n (by decide : (".tmp" : String) ≠ ".hash")),
          readFile_removeFile,
          if_neg (path_ne_of_suffix_ne fp n (by decide : (".tmp" : String) ≠ ".lock")),
          dirs_removeFile, dirs_removeFile]
        exact htmp

theorem any_key_eq_false {l : List FsPath} {j : FsPath} (h : j ∉ l) :
    l.any (fun d => decide (d = j)) = false := by
  rw [Bool.eq_false_iff]
  intro hany
  obtain ⟨x, hx, hpx⟩ := List.any_eq_true.mp hany
  simp only [decide_eq_true_eq] at hpx
  exact h (hpx ▸ hx)

theorem chunkConcat_congr (tmp : FsPath) (is : List Nat) (fs fs2 : Fs)
    (h : ∀ i ∈ is, fs2.readFile (tmp ++ ["chunk_" ++ toString i]) =
      fs.readFile (tmp ++ ["chunk_" ++ toString i])) :
    chunkConcat fs2 tmp is = chunkConcat fs tmp is := by
  induction is with
  | nil => rfl
  | cons i is' ih =>
    unfold chunkConcat
    rw [h i (List.mem_cons_self i is'), ih (fun j hj => h j (List.mem_cons_of_mem i hj))]

/-- Invariant of the assembly loop: on success the directories are
untouched, every path other than the final file keeps its content, the
final file holds the accumulated bytes, and the written content is the
accumulator followed by the concatenation of the chunks read. -/
theorem assembleChunks_inr (tmp final : FsPath) (is : List Nat) :
    ∀ (fs : Fs) (acc : Bytes) (fs' : Fs) (content : Bytes),
      (∀ i ∈ is, tmp ++ ["chunk_" ++ toString i] ≠ final) →
      assembleChunks tmp final is fs acc = Sum.inr (fs', content) →
      fs'.dirs = fs.dirs ∧
      (∀ q, q ≠ final → fs'.readFile q = fs.readFile q) ∧
      (fs.readFile final = some acc → fs'.readFile final = some content) ∧
      ∃ rest, chunkConcat fs tmp is = some rest ∧ content = acc ++ rest := by
  induction is with
  | nil =>
    intro fs acc fs' content hne hstep
    have h := Sum.inr.inj hstep
    have hfs : fs = fs' := congrArg Prod.fst h
    have hacc : acc = content := congrArg Prod.snd h
    subst hfs
    subst hacc
    exact ⟨rfl, fun q _ => rfl, fun h => h, [], rfl, (List.append_nil acc).symm⟩
  | cons i is' ih =>
    intro fs acc fs' content hne hstep
    unfold assembleChunks at hstep
    cases hrd : fs.readFile (tmp ++ ["chunk_" ++ toString i]) with
    | none =>
      rw [hrd] at hstep
      exact Sum.noConfusion hstep
    | some d =>
      rw [hrd] at hstep
      dsimp only at hstep
      have hne' : ∀ j ∈ is', tmp ++ ["chunk_" ++ toString j] ≠ final :=
        fun j hj => hne j (List.mem_cons_of_mem i hj)
      obtain ⟨hd, hreads, hfinal, rest, hcc, hcontent⟩ :=
        ih (fs.writeFile final (acc ++ d)) (acc ++ d) fs' content hne' hstep
      have hchunk_ne : ∀ j ∈ is', (fs.writeFile final (acc ++ d)).readFile
          (tmp ++ ["chunk_" ++ toString j]) = fs.readFile (tmp ++ ["chunk_" ++ toString j]) := by
        intro j hj
        rw [readFile_writeFile, if_neg (hne' j hj)]
      refine ⟨?_, ?_, ?_, d ++ rest, ?_, ?_⟩
      · rw [hd, dirs_writeFile]
      · intro q hq
        rw [hreads q hq, readFile_writeFile, if_neg hq]
      · intro _
        apply hfinal
        rw [readFile_writeFile, if_pos rfl]
      · unfold chunkConcat
        rw [hrd, ← chunkConcat_congr tmp is' fs (fs.writeFile final (acc ++ d)) hchunk_ne, hcc]
      · rw [hcontent, List.append_assoc]

/-- C1: whenever the finalizer returns success, the final file exists at
the resolved path joined with file_name and holds exactly the
concatenation of the stored chunks 0..total_chunks in ascending order,
the lowercase-hex digest of that content equals metadata.file_hash, and
the `.lock`, `.hash` and `.tmp` siblings are gone; and when any
`.tmp/chunk_<i>` with i < total_chunks is missing, the finalizer fails
with the file system untouched (in particular before creating the final
file). -/
theorem assemble_and_verify_spec (metadata : UploadMetadata) (cfg : Config)
    (sha : Bytes → Bytes) (fs : Fs) (fp : FsPath)
    (hres : resolve_and_validate_path metadata.target_dir cfg = Except.ok fp)
    (hlock : (fp ++ [metadata.file_name ++ ".lock"]) ∉ fs.dirs)
    (hhash : (fp ++ [metadata.file_name ++ ".hash"]) ∉ fs.dirs) :
    (∀ fs', assemble_and_verify metadata cfg sha fs = (true, fs') →
      ∃ content,
        chunkConcat fs (fp ++ [metadata.file_name ++ ".tmp"])
          (List.range (totalChunks metadata.file_size)) = some content ∧
        fs'.readFile (fp ++ [metadata.file_name]) = some content ∧
        hexEncode (sha content) = metadata.file_hash ∧
        fs'.tryExists (fp ++ [metadata.file_name ++ ".lock"]) = false ∧
        fs'.tryExists (fp ++ [metadata.file_name ++ ".hash"]) = false ∧
        fs'.tryExists (fp ++ [metadata.file_name ++ ".tmp"]) = false) ∧
    (∀ i, i < totalChunks metadata.file_size →
      fs.tryExists (fp ++ [metadata.file_name ++ ".tmp"] ++ ["chunk_" ++ toString i]) = false →
      assemble_and_verify metadata cfg sha fs = (false, fs)) := by
  have hfl : fp ++ [metadata.file_name] ≠ fp ++ [metadata.file_name ++ ".lock"] :=
    path_ne_plain_suffix fp metadata.file_name (by decide)
  have hfh : fp ++ [metadata.file_name] ≠ fp ++ [metadata.file_name ++ ".hash"] :=
    path_ne_plain_suffix fp metadata.file_name (by decide)
  have hlh : fp ++ [metadata.file_name ++ ".lock"] ≠ fp ++ [metadata.file_name ++ ".hash"] :=
    path_ne_of_suffix_ne fp metadata.file_name (by decide)
  have hufinal : FsPath.under (fp ++ [metadata.file_name])
      (fp ++ [metadata.file_name ++ ".tmp"]) = false := by
    rw [under_append_single]
    simp only [decide_eq_false_iff_not]
    exact ne_strApp_of_ne_empty metadata.file_name (by decide)
  have hulock : FsPath.under (fp ++ [metadata.file_name ++ ".lock"])
      (fp ++ [metadata.file_name ++ ".tmp"]) = false :=
    under_of_suffix fp metadata.file_name (by decide)
  have huhash : FsPath.under (fp ++ [metadata.file_name ++ ".hash"])
      (fp ++ [metadata.file_name ++ ".tmp"]) = false :=
    under_of_suffix fp metadata.file_name (by decide)
  constructor
  · intro fs' hsucc
    unfold assemble_and_verify at hsucc
    rw [hres] at hsucc
    dsimp only at hsucc
    by_cases hall : ((List.range (totalChunks metadata.file_size)).all
        (fun i => fs.tryExists
          (fp ++ [metadata.file_name ++ ".tmp"] ++ ["chunk_" ++ toString i]))) = true
    · rw [if_pos hall] at hsucc
      cases hassem : assembleChunks (fp ++ [metadata.file_name ++ ".tmp"])
          (fp ++ [metadata.file_name]) (List.range (totalChunks metadata.file_size))
          (fs.createFile (fp ++ [metadata.file_name])) [] with
      | inl fsp =>
        rw [hassem] at hsucc
        exact Bool.noConfusion (congrArg Prod.fst hsucc)
      | inr pr =>
        obtain ⟨fs1, content0⟩ := pr
        rw [hassem] at hsucc
        dsimp only at hsucc
        cases hread : fs1.readFile (fp ++ [metadata.file_name]) with
        | none =>
          rw [hread] at hsucc
          exact Bool.noConfusion (congrArg Prod.fst hsucc)
        | some content =>
          rw [hread] at hsucc
          dsimp only at hsucc
          by_cases hhx : hexEncode (sha content) = metadata.file_hash
          · rw [if_pos hhx] at hsucc
            have hfs' : fs' =
                ((fs1.removeFile (fp ++ [metadata.file_name ++ ".lock"])).removeFile
                  (fp ++ [metadata.file_name ++ ".hash"])).removeDirAll
                  (fp ++ [metadata.file_name ++ ".tmp"]) :=
              (congrArg Prod.snd hsucc).symm
            have hne : ∀ i ∈ List.range (totalChunks metadata.file_size),
                (fp ++ [metadata.file_name ++ ".tmp"]) ++ ["chunk_" ++ toString i] ≠
                  fp ++ [metadata.file_name] := by
              intro i _ he
              have hl := congrArg List.length he
              simp only [List.append_assoc, List.length_append, List.length_cons,
                List.length_nil] at hl
              omega
            obtain ⟨hd, hreads, hfinal, rest, hcc, hcontent⟩ :=
              assembleChunks_inr (fp ++ [metadata.file_name ++ ".tmp"])
                (fp ++ [metadata.file_name]) (List.range (totalChunks metadata.file_size))
                (fs.createFile (fp ++ [metadata.file_name])) [] fs1 content0 hne hassem
            have h0 : (fs.createFile (fp ++ [metadata.file_name])).readFile
                (fp ++ [metadata.file_name]) = some [] := by
              unfold Fs.createFile
              rw [readFile_writeFile, if_pos rfl]
            have h1 := hfinal h0
            have hc0 : content = content0 := by
              rw [hread] at h1
              exact Option.some.inj h1
            have hcrest : content0 = rest := by simpa using hcontent
            have hcong := chunkConcat_congr (fp ++ [metadata.file_name ++ ".tmp"])
              (List.range (totalChunks metadata.file_size)) fs
              (fs.createFile (fp ++ [metadata.file_name]))
              (fun i hi => by
                unfold Fs.createFile
                rw [readFile_writeFile, if_neg (hne i hi)])
            rw [hcong] at hcc
            have hdirs1 : fs1.dirs = fs.dirs := by
              rw [hd]
              rfl
            refine ⟨content, ?_, ?_, hhx, ?_, ?_, ?_⟩
            · rw [hc0, hcrest]
              exact hcc
            · rw [hfs', readFile_removeDirAll, if_neg (by simp [hufinal]),
                readFile_removeFile, if_neg hfh, readFile_removeFile, if_neg hfl]
              exact hread
            · rw [hfs']
              unfold Fs.tryExists
              have hrl : (((fs1.removeFile (fp ++ [metadata.file_name ++ ".lock"])).removeFile
                  (fp ++ [metadata.file_name ++ ".hash"])).removeDirAll
                  (fp ++ [metadata.file_name ++ ".tmp"])).readFile
                  (fp ++ [metadata.file_name ++ ".lock"]) = none := by
                rw [readFile_removeDirAll, if_neg (by simp [hulock]),
                  readFile_removeFile, if_neg hlh, readFile_removeFile, if_pos rfl]
              rw [hrl]
              have hdirs3 : (((fs1.removeFile (fp ++ [metadata.file_name ++ ".lock"])).removeFile
                  (fp ++ [metadata.file_name ++ ".hash"])).removeDirAll
                  (fp ++ [metadata.file_name ++ ".tmp"])).dirs =
                  fs.dirs.filter (fun d => !FsPath.under d
                    (fp ++ [metadata.file_name ++ ".tmp"])) := by
                unfold Fs.removeDirAll
                rw [dirs_removeFile, dirs_removeFile, hdirs1]
              rw [hdirs3, any_key_filter fs.dirs
                (fun d => FsPath.under d (fp ++ [metadata.file_name ++ ".tmp"])),
                if_neg (by simp [hulock]), any_key_eq_false hlock]
              rfl
            · rw [hfs']
              unfold Fs.tryExists
              have hrh : (((fs1.removeFile (fp ++ [metadata.file_name ++ ".lock"])).removeFile
                  (fp ++ [metadata.file_name ++ ".hash"])).removeDirAll
                  (fp ++ [metadata.file_name ++ ".tmp"])).readFile
                  (fp ++ [metadata.file_name ++ ".hash"]) = none := by
                rw [readFile_removeDirAll, if_neg (by simp [huhash]),
                  readFile_removeFile, if_pos rfl]
              rw [hrh]
              have hdirs3 : (((fs1.removeFile (fp ++ [metadata.file_name ++ ".lock"])).removeFile
                  (fp ++ [metadata.file_name ++ ".hash"])).removeDirAll
                  (fp ++ [metadata.file_name ++ ".tmp"])).dirs =
                  fs.dirs.filter (fun d => !FsPath.under d
                    (fp ++ [metadata.file_name ++ ".tmp"])) := by
                unfold Fs.removeDirAll
                rw [dirs_removeFile, dirs_removeFile, hdirs1]
              rw [hdirs3, any_key_filter fs.dirs
                (fun d => FsPath.under d (fp ++ [metadata.file_name ++ ".tmp"])),
                if_neg (by simp [huhash]), any_key_eq_false hhash]
              rfl
            · rw [hfs']
              unfold Fs.tryExists
              have hrt : (((fs1.removeFile (fp ++ [metadata.file_name ++ ".lock"])).removeFile
                  (fp ++ [metadata.file_name ++ ".hash"])).removeDirAll
                  (fp ++ [metadata.file_name ++ ".tmp"])).readFile
                  (fp ++ [metadata.file_name ++ ".tmp"]) = none := by
                rw [readFile_removeDirAll, if_pos (under_self _)]
              rw [hrt]
              have hdirs3 : (((fs1.removeFile (fp ++ [metadata.file_name ++ ".lock"])).removeFile
                  (fp ++ [metadata.file_name ++ ".hash"])).removeDirAll
                  (fp ++ [metadata.file_name ++ ".tmp"])).dirs =
                  fs.dirs.filter (fun d => !FsPath.under d
                    (fp ++ [metadata.file_name ++ ".tmp"])) := by
                unfold Fs.removeDirAll
                rw [dirs_removeFile, dirs_removeFile, hdirs1]
              rw [hdirs3, any_key_filter fs.dirs
                (fun d => FsPath.under d (fp ++ [metadata.file_name ++ ".tmp"])),
                if_pos (under_self _)]
              rfl
          · rw [if_neg hhx] at hsucc
            exact Bool.noConfusion (congrArg Prod.fst hsucc)
    · rw [if_neg hall] at hsucc
      exact Bool.noConfusion (congrArg Prod.fst hsucc)
  · intro i hi hexi
    unfold assemble_and_verify
    rw [hres]
    dsimp only
    rw [if_neg (fun hall => by
      have := List.all_eq_true.mp hall i (List.mem_range.mpr hi)
      rw [hexi] at this
      exact Bool.noConfusion this)]

/-- Witness for C1: a one-chunk upload that succeeds (stored chunk [7],
digest function constant [171], hex "ab" matching file_hash "ab"). -/
theorem assemble_and_verify_spec_witness :
    ∃ content,
      chunkConcat
        ⟨[(["/b", "f.tmp", "chunk_0"], [7]), (["/b", "f.lock"], []),
          (["/b", "f.hash"], strToBytes "ab")], [["/b"], ["/b", "f.tmp"]]⟩
        (["/b"] ++ ["f" ++ ".tmp"]) (List.range (totalChunks 1)) = some content ∧
      (assemble_and_verify ⟨"/d", "f", 1, "ab"⟩ (Config.mk (some [⟨"d", "/b"⟩]))
          (fun _ => [171])
          ⟨[(["/b", "f.tmp", "chunk_0"], [7]), (["/b", "f.lock"], []),
            (["/b", "f.hash"], strToBytes "ab")],
            [["/b"], ["/b", "f.tmp"]]⟩).2.readFile (["/b"] ++ ["f"]) = some content ∧
      hexEncode ((fun _ => ([171] : Bytes)) content) = "ab" ∧
      (assemble_and_verify ⟨"/d", "f", 1, "ab"⟩ (Config.mk (some [⟨"d", "/b"⟩]))
          (fun _ => [171])
          ⟨[(["/b", "f.tmp", "chunk_0"], [7]), (["/b", "f.lock"], []),
            (["/b", "f.hash"], strToBytes "ab")],
            [["/b"], ["/b", "f.tmp"]]⟩).2.tryExists (["/b"] ++ ["f" ++ ".lock"]) = false ∧
      (assemble_and_verify ⟨"/d", "f", 1, "ab"⟩ (Config.mk (some [⟨"d", "/b"⟩]))
          (fun _ => [171])
          ⟨[(["/b", "f.tmp", "chunk_0"], [7]), (["/b", "f.lock"], []),
            (["/b", "f.hash"], strToBytes "ab")],
            [["/b"], ["/b", "f.tmp"]]⟩).2.tryExists (["/b"] ++ ["f" ++ ".hash"]) = false ∧
      (assemble_and_verify ⟨"/d", "f", 1, "ab"⟩ (Config.mk (some [⟨"d", "/b"⟩]))
          (fun _ => [171])
          ⟨[(["/b", "f.tmp", "chunk_0"], [7]), (["/b", "f.lock"], []),
            (["/b", "f.hash"], strToBytes "ab")],
            [["/b"], ["/b", "f.tmp"]]⟩).2.tryExists (["/b"] ++ ["f" ++ ".tmp"]) = false :=
  (assemble_and_verify_spec ⟨"/d", "f", 1, "ab"⟩ (Config.mk (some [⟨"d", "/b"⟩]))
      (fun _ => [171])
      ⟨[(["/b", "f.tmp", "chunk_0"], [7]), (["/b", "f.lock"], []),
        (["/b", "f.hash"], strToBytes "ab")], [["/b"], ["/b", "f.tmp"]]⟩ ["/b"]
      (by decide) (by decide) (by decide)).1
    (assemble_and_verify ⟨"/d", "f", 1, "ab"⟩ (Config.mk (some [⟨"d", "/b"⟩]))
      (fun _ => [171])
      ⟨[(["/b", "f.tmp", "chunk_0"], [7]), (["/b", "f.lock"], []),
        (["/b", "f.hash"], strToBytes "ab")], [["/b"], ["/b", "f.tmp"]]⟩).2
    (by decide)

/-- C4: the preparation decision table, in order.  (1) If the final file
path already exists the request is rejected with the "already exists"
error and the state is untouched — even when the stored hash would
match, so a completed file is never resumed.  (2) Else if `.lock` exists
and the stored `.hash` content (trimmed) equals the request hash, the
result is Resumable with the on-disk markers unmodified.  (3) Else if
`.lock` exists with a different stored hash, the `.lock`, `.hash` and
`.tmp` entries are deleted and, as in the fresh case, the directory, an
empty `.lock`, a `.hash` holding the request hash and an empty `.tmp`
directory are created, returning New.  (4) The fresh case creates the
same layout and returns New. -/
theorem prepare_upload_directory_spec (metadata : UploadMetadata) (cfg : Config) (fs : Fs)
    (fp : FsPath)
    (hres : resolve_and_validate_path metadata.target_dir cfg = Except.ok fp)
    (hwf : ∀ e ∈ fs.files,
      FsPath.under e.1 (fp ++ [metadata.file_name ++ ".tmp"]) = true →
      fs.tryExists (fp ++ [metadata.file_name ++ ".tmp"]) = true) :
    (fs.tryExists (fp ++ [metadata.file_name]) = true →
      prepare_upload_directory metadata cfg fs =
        (Except.error
          ("File " ++ metadata.file_name ++ " already exists at the target location."), fs)) ∧
    (fs.tryExists (fp ++ [metadata.file_name]) = false →
      fs.tryExists (fp ++ [metadata.file_name ++ ".lock"]) = true →
      ∀ s, fs.readToString (fp ++ [metadata.file_name ++ ".hash"]) = some s →
        strTrim s = metadata.file_hash →
        prepare_upload_directory metadata cfg fs = (Except.ok PreparationResult.Resumable, fs)) ∧
    (fs.tryExists (fp ++ [metadata.file_name]) = false →
      fs.tryExists (fp ++ [metadata.file_name ++ ".lock"]) = true →
      ∀ s, fs.readToString (fp ++ [metadata.file_name ++ ".hash"]) = some s →
        strTrim s ≠ metadata.file_hash →
        (prepare_upload_directory metadata cfg fs).1 = Except.ok PreparationResult.New ∧
        (prepare_upload_directory metadata cfg fs).2.readFile
          (fp ++ [metadata.file_name ++ ".lock"]) = some [] ∧
        (prepare_upload_directory metadata cfg fs).2.readToString
          (fp ++ [metadata.file_name ++ ".hash"]) = some metadata.file_hash ∧
        fp ∈ (prepare_upload_directory metadata cfg fs).2.dirs ∧
        (fp ++ [metadata.file_name ++ ".tmp"]) ∈
          (prepare_upload_directory metadata cfg fs).2.dirs ∧
        (∀ q, FsPath.under q (fp ++ [metadata.file_name ++ ".tmp"]) = true →
          (prepare_upload_directory metadata cfg fs).2.readFile q = none)) ∧
    (fs.tryExists (fp ++ [metadata.file_name]) = false →
      fs.tryExists (fp ++ [metadata.file_name ++ ".lock"]) = false →
      (prepare_upload_directory metadata cfg fs).1 = Except.ok PreparationResult.New ∧
      (prepare_upload_directory metadata cfg fs).2.readFile
        (fp ++ [metadata.file_name ++ ".lock"]) = some [] ∧
      (prepare_upload_directory metadata cfg fs).2.readToString
        (fp ++ [metadata.file_name ++ ".hash"]) = some metadata.file_hash ∧
      fp ∈ (prepare_upload_directory metadata cfg fs).2.dirs ∧
      (fp ++ [metadata.file_name ++ ".tmp"]) ∈
        (prepare_upload_directory metadata cfg fs).2.dirs) := by
  refine ⟨?_, ?_, ?_, ?_⟩
  · intro h1
    unfold prepare_upload_directory
    rw [hres]
    dsimp only
    rw [if_pos h1]
  · intro h1 h2 s hs htrim
    unfold prepare_upload_directory
    rw [hres]
    dsimp only
    rw [if_neg (by simp [h1]), if_pos h2, hs]
    dsimp only
    rw [if_pos htrim]
  · intro h1 h2 s hs hne
    have heq : prepare_upload_directory metadata cfg fs =
        prepareCreate fp metadata
          (cleanupStale fs (fp ++ [metadata.file_name ++ ".lock"])
            (fp ++ [metadata.file_name ++ ".hash"])
            (fp ++ [metadata.file_name ++ ".tmp"])) := by
      unfold prepare_upload_directory
      rw [hres]
      dsimp only
      rw [if_neg (by simp [h1]), if_pos h2, hs]
      dsimp only
      rw [if_neg hne]
    rw [heq]
    obtain ⟨hnew, hlock, hhash, hdir1, hdir2, hpres⟩ :=
      prepareCreate_post fp metadata
        (cleanupStale fs (fp ++ [metadata.file_name ++ ".lock"])
          (fp ++ [metadata.file_name ++ ".hash"])
          (fp ++ [metadata.file_name ++ ".tmp"]))
    refine ⟨hnew, hlock, hhash, hdir1, hdir2, ?_⟩
    intro q hq
    have hql : q ≠ fp ++ [metadata.file_name ++ ".lock"] := by
      intro he
      rw [he, under_of_suffix fp metadata.file_name
        (by decide : (".lock" : String) ≠ ".tmp")] at hq
      exact Bool.noConfusion hq
    have hqh : q ≠ fp ++ [metadata.file_name ++ ".hash"] := by
      intro he
      rw [he, under_of_suffix fp metadata.file_name
        (by decide : (".hash" : String) ≠ ".tmp")] at hq
      exact Bool.noConfusion hq
    rw [hpres q hql hqh]
    exact cleanupStale_no_tmp_files fs fp metadata.file_name hwf q hq
  · intro h1 h2
    have heq : prepare_upload_directory metadata cfg fs = prepareCreate fp metadata fs := by
      unfold prepare_upload_directory
      rw [hres]
      dsimp only
      rw [if_neg (by simp [h1]), if_neg (by simp [h2])]
    rw [heq]
    obtain ⟨hnew, hlock, hhash, hdir1, hdir2, -⟩ := prepareCreate_post fp metadata fs
    exact ⟨hnew, hlock, hhash, hdir1, hdir2⟩

/-- Witness for C4: the stale branch at a concrete state (lock present,
stored hash "oldh", request hash "newh", one leftover chunk). -/
theorem prepare_upload_directory_spec_witness :
    (prepare_upload_directory ⟨"/d", "f", 1, "newh"⟩ (Config.mk (some [⟨"d", "/b"⟩]))
        ⟨[(["/b", "f.lock"], []), (["/b", "f.hash"], strToBytes "oldh"),
          (["/b", "f.tmp", "chunk_0"], [1])], [["/b"], ["/b", "f.tmp"]]⟩).1 =
      Except.ok PreparationResult.New ∧
    (prepare_upload_directory ⟨"/d", "f", 1, "newh"⟩ (Config.mk (some [⟨"d", "/b"⟩]))
        ⟨[(["/b", "f.lock"], []), (["/b", "f.hash"], strToBytes "oldh"),
          (["/b", "f.tmp", "chunk_0"], [1])], [["/b"], ["/b", "f.tmp"]]⟩).2.readFile
      (["/b"] ++ ["f" ++ ".lock"]) = some [] ∧
    (prepare_upload_directory ⟨"/d", "f", 1, "newh"⟩ (Config.mk (some [⟨"d", "/b"⟩]))
        ⟨[(["/b", "f.lock"], []), (["/b", "f.hash"], strToBytes "oldh"),
          (["/b", "f.tmp", "chunk_0"], [1])], [["/b"], ["/b", "f.tmp"]]⟩).2.readToString
      (["/b"] ++ ["f" ++ ".hash"]) = some "newh" ∧
    ["/b"] ∈ (prepare_upload_directory ⟨"/d", "f", 1, "newh"⟩ (Config.mk (some [⟨"d", "/b"⟩]))
        ⟨[(["/b", "f.lock"], []), (["/b", "f.hash"], strToBytes "oldh"),
          (["/b", "f.tmp", "chunk_0"], [1])], [["/b"], ["/b", "f.tmp"]]⟩).2.dirs ∧
    (["/b"] ++ ["f" ++ ".tmp"]) ∈
      (prepare_upload_directory ⟨"/d", "f", 1, "newh"⟩ (Config.mk (some [⟨"d", "/b"⟩]))
        ⟨[(["/b", "f.lock"], []), (["/b", "f.hash"], strToBytes "oldh"),
          (["/b", "f.tmp", "chunk_0"], [1])], [["/b"], ["/b", "f.tmp"]]⟩).2.dirs ∧
    (∀ q, FsPath.under q (["/b"] ++ ["f" ++ ".tmp"]) = true →
      (prepare_upload_directory ⟨"/d", "f", 1, "newh"⟩ (Config.mk (some [⟨"d", "/b"⟩]))
        ⟨[(["/b", "f.lock"], []), (["/b", "f.hash"], strToBytes "oldh"),
          (["/b", "f.tmp", "chunk_0"], [1])], [["/b"], ["/b", "f.tmp"]]⟩).2.readFile q = none) :=
  (prepare_upload_directory_spec ⟨"/d", "f", 1, "newh"⟩ (Config.mk (some [⟨"d", "/b"⟩]))
      ⟨[(["/b", "f.lock"], []), (["/b", "f.hash"], strToBytes "oldh"),
        (["/b", "f.tmp", "chunk_0"], [1])], [["/b"], ["/b", "f.tmp"]]⟩ ["/b"]
      (by decide) (by decide)).2.2.1 (by decide) (by decide) "oldh" (by decide) (by decide)

theorem pendingLookup_filter_self (m : PendingHashes) (k : Nat) :
    pendingLookup (m.filter (fun e => !decide (e.1 = k))) k = none := by
  unfold pendingLookup
  rw [find?_key_filter m (fun x => decide (x = k)) k, if_pos (by simp)]
  rfl

theorem filter_key_eq_of_lookup_none (m : PendingHashes) (k : Nat)
    (h : pendingLookup m k = none) : m.filter (fun e => !decide (e.1 = k)) = m := by
  apply List.filter_eq_self.mpr
  intro e he
  have hfind : m.find? (fun e => decide (e.1 = k)) = none := by
    cases hf : m.find? (fun e => decide (e.1 = k)) with
    | none => rfl
    | some x =>
      unfold pendingLookup at h
      rw [hf] at h
      exact Option.noConfusion h
  have := List.find?_eq_none.mp hfind e he
  simpa using this

/-- C6: for every chunk-inquiry payload (chunk_id followed by a 32-byte
client hash, 40 bytes in all), the server replies payload [2] with the
final flag exactly when `.tmp/chunk_<id>` is a readable file whose
SHA-256 equals the client hash (the stored chunk is skipped, pending map
untouched); otherwise it records the client hash in the pending map
under chunk_id and replies payload [1] without the final flag. -/
theorem handle_chunk_inquiry_spec (payload : Bytes) (cfg : Config) (meta : UploadMetadata)
    (sha : Bytes → Bytes) (st : WorkerSt) (base_path : FsPath)
    (hlen : payload.length = 40)
    (hres : resolve_and_validate_path meta.target_dir cfg = Except.ok base_path) :
    (∀ d, st.fs.readFile (base_path ++ [meta.file_name ++ ".tmp"] ++
          ["chunk_" ++ toString (leToNat (payload.take 8))]) = some d →
      sha d = payload.drop 8 →
      handle_chunk_inquiry payload cfg meta sha st =
        some (some { header := ⟨0x00, 0, PayloadType.Raw, 0xFF, 1⟩, payload := [2] }, st)) ∧
    ((∀ d, st.fs.readFile (base_path ++ [meta.file_name ++ ".tmp"] ++
          ["chunk_" ++ toString (leToNat (payload.take 8))]) = some d →
        sha d ≠ payload.drop 8) →
      handle_chunk_inquiry payload cfg meta sha st =
        some (some { header := ⟨0x00, 0, PayloadType.Raw, 0, 1⟩, payload := [1] },
          { st with pending :=
              (pendingInsert st.pending (leToNat (payload.take 8)) (payload.drop 8)) })) := by
  unfold handle_chunk_inquiry
  rw [if_neg (by simp [hlen]), hres]
  constructor
  · intro d hd hsha
    have hte : st.fs.tryExists (base_path ++ [meta.file_name ++ ".tmp"] ++
        ["chunk_" ++ toString (leToNat (payload.take 8))]) = true := by
      unfold Fs.tryExists
      rw [hd]
      rfl
    simp only [hte, hd, hsha]
    simp [WsmHeader.with_reserved, RESERVED_FINAL_FLAG]
  · intro hno
    cases hd : st.fs.readFile (base_path ++ [meta.file_name ++ ".tmp"] ++
        ["chunk_" ++ toString (leToNat (payload.take 8))]) with
    | none =>
      simp only [hd, Bool.and_false]
      simp [WsmHeader.mkNew]
    | some d =>
      have := hno d hd
      simp only [hd, this]
      simp [WsmHeader.mkNew]

/-- Witness for C6 at a concrete inquiry whose stored chunk matches
(skip branch). -/
theorem handle_chunk_inquiry_spec_witness :
    handle_chunk_inquiry ([3, 0, 0, 0, 0, 0, 0, 0] ++ List.replicate 32 7)
        (Config.mk (some [⟨"d", "/b"⟩])) ⟨"/d", "f", 1, "h"⟩
        (fun _ => List.replicate 32 7)
        ⟨⟨[(["/b", "f.tmp", "chunk_3"], [9])], []⟩, []⟩ =
      some (some { header := ⟨0x00, 0, PayloadType.Raw, 0xFF, 1⟩, payload := [2] },
        ⟨⟨[(["/b", "f.tmp", "chunk_3"], [9])], []⟩, []⟩) :=
  (handle_chunk_inquiry_spec ([3, 0, 0, 0, 0, 0, 0, 0] ++ List.replicate 32 7)
      (Config.mk (some [⟨"d", "/b"⟩])) ⟨"/d", "f", 1, "h"⟩
      (fun _ => List.replicate 32 7)
      ⟨⟨[(["/b", "f.tmp", "chunk_3"], [9])], []⟩, []⟩ ["/b"]
      (by decide) (by decide)).1 [9] (by decide) (by decide)

/-- C5: for every chunk-data payload (chunk_id followed by at least one
data byte), the chunk file `.tmp/chunk_<id>` is written exactly when a
pending entry for chunk_id exists and the SHA-256 of the received bytes
equals it, and only then does the single empty-payload reply carry the
final flag; on mismatch or missing entry the file system is unchanged
and the reply is empty without the final flag. -/
theorem handle_chunk_data_spec (payload : Bytes) (cfg : Config) (meta : UploadMetadata)
    (sha : Bytes → Bytes) (st : WorkerSt) (base_path : FsPath)
    (hlen : 8 < payload.length)
    (hres : resolve_and_validate_path meta.target_dir cfg = Except.ok base_path) :
    (∀ expected, pendingLookup st.pending (leToNat (payload.take 8)) = some expected →
      sha (payload.drop 8) = expected →
      handle_chunk_data payload cfg meta sha st =
        some (some { header := ⟨0x00, 0, PayloadType.Raw, 0xFF, 0⟩, payload := [] },
          { fs := st.fs.writeFile (base_path ++ [meta.file_name ++ ".tmp"] ++
              ["chunk_" ++ toString (leToNat (payload.take 8))]) (payload.drop 8)
            pending := (pendingRemove st.pending (leToNat (payload.take 8))).2 })) ∧
    (∀ expected, pendingLookup st.pending (leToNat (payload.take 8)) = some expected →
      sha (payload.drop 8) ≠ expected →
      handle_chunk_data payload cfg meta sha st =
        some (some { header := ⟨0x00, 0, PayloadType.Raw, 0, 0⟩, payload := [] },
          { st with pending := (pendingRemove st.pending (leToNat (payload.take 8))).2 })) ∧
    (pendingLookup st.pending (leToNat (payload.take 8)) = none →
      handle_chunk_data payload cfg meta sha st =
        some (some { header := ⟨0x00, 0, PayloadType.Raw, 0, 0⟩, payload := [] },
          { st with pending := (pendingRemove st.pending (leToNat (payload.take 8))).2 })) := by
  unfold handle_chunk_data
  rw [if_neg (by omega)]
  refine ⟨?_, ?_, ?_⟩
  · intro expected hpend hsha
    have h1 : (pendingRemove st.pending (leToNat (payload.take 8))).1 = some expected := hpend
    simp only [h1, hsha, hres]
    simp [dataReply, WsmHeader.with_reserved, RESERVED_FINAL_FLAG]
  · intro expected hpend hsha
    have h1 : (pendingRemove st.pending (leToNat (payload.take 8))).1 = some expected := hpend
    simp only [h1]
    rw [if_neg hsha]
    simp [dataReply, WsmHeader.with_reserved]
  · intro hpend
    have h1 : (pendingRemove st.pending (leToNat (payload.take 8))).1 = none := hpend
    simp only [h1]
    simp [dataReply, WsmHeader.with_reserved]

/-- Witness for C5 at a concrete accepted chunk (pending entry present,
hash matching; the chunk file is written and the reply is final). -/
theorem handle_chunk_data_spec_witness :
    handle_chunk_data ([3, 0, 0, 0, 0, 0, 0, 0] ++ [9])
        (Config.mk (some [⟨"d", "/b"⟩])) ⟨"/d", "f", 1, "h"⟩
        (fun _ => List.replicate 32 7)
        ⟨⟨[], []⟩, [(3, List.replicate 32 7)]⟩ =
      some (some { header := ⟨0x00, 0, PayloadType.Raw, 0xFF, 0⟩, payload := [] },
        { fs := Fs.writeFile ⟨[], []⟩ (["/b"] ++ ["f.tmp"] ++ ["chunk_" ++ toString
            (leToNat (([3, 0, 0, 0, 0, 0, 0, 0] ++ [9] : Bytes).take 8))])
            (([3, 0, 0, 0, 0, 0, 0, 0] ++ [9] : Bytes).drop 8)
          pending := (pendingRemove [(3, List.replicate 32 7)]
            (leToNat (([3, 0, 0, 0, 0, 0, 0, 0] ++ [9] : Bytes).take 8))).2 }) :=
  (handle_chunk_data_spec ([3, 0, 0, 0, 0, 0, 0, 0] ++ [9])
      (Config.mk (some [⟨"d", "/b"⟩])) ⟨"/d", "f", 1, "h"⟩
      (fun _ => List.replicate 32 7)
      ⟨⟨[], []⟩, [(3, List.replicate 32 7)]⟩ ["/b"]
      (by decide) (by decide)).1 (List.replicate 32 7) (by decide) (by decide)

/-- C10: every well-formed chunk-data message removes the pending entry
for its chunk_id unconditionally, so afterwards the pending map holds no
entry for it, and a repeated chunk-data message for the same chunk id
(without an intervening accepted inquiry) writes nothing and receives a
non-final empty reply, leaving the worker state unchanged. -/
theorem handle_chunk_data_clears_pending (payload : Bytes) (cfg : Config)
    (meta : UploadMetadata) (sha : Bytes → Bytes) (st : WorkerSt)
    (reply : Option Frame) (st' : WorkerSt)
    (hlen : 8 < payload.length)
    (h : handle_chunk_data payload cfg meta sha st = some (reply, st')) :
    pendingLookup st'.pending (leToNat (payload.take 8)) = none ∧
    (∀ payload2 : Bytes, 8 < payload2.length →
      leToNat (payload2.take 8) = leToNat (payload.take 8) →
      handle_chunk_data payload2 cfg meta sha st' =
        some (some { header := ⟨0x00, 0, PayloadType.Raw, 0, 0⟩, payload := [] }, st')) := by
  have hpend : st'.pending =
      st.pending.filter (fun e => !decide (e.1 = leToNat (payload.take 8))) := by
    simp only [handle_chunk_data] at h
    rw [if_neg (by omega)] at h
    split at h
    · split at h
      · split at h
        · exact Option.noConfusion h
        · have h2 := congrArg Prod.snd (Option.some.inj h)
          exact (congrArg WorkerSt.pending h2).symm
      · have h2 := congrArg Prod.snd (Option.some.inj h)
        exact (congrArg WorkerSt.pending h2).symm
    · have h2 := congrArg Prod.snd (Option.some.inj h)
      exact (congrArg WorkerSt.pending h2).symm
  have hnone : pendingLookup st'.pending (leToNat (payload.take 8)) = none := by
    rw [hpend]
    exact pendingLookup_filter_self _ _
  refine ⟨hnone, ?_⟩
  intro payload2 h2len h2id
  unfold handle_chunk_data
  rw [if_neg (by omega), h2id]
  have h1 : (pendingRemove st'.pending (leToNat (payload.take 8))).1 = none := hnone
  simp only [h1]
  have h2 : (pendingRemove st'.pending (leToNat (payload.take 8))).2 = st'.pending :=
    filter_key_eq_of_lookup_none _ _ hnone
  rw [h2]
  simp [dataReply, WsmHeader.with_reserved]

/-- Witness for C10: the accepted chunk of the C5 scenario, replayed. -/
theorem handle_chunk_data_clears_pending_witness :
    pendingLookup (WorkerSt.pending ⟨⟨[(["/b", "f.tmp", "chunk_3"], [9])], []⟩, []⟩)
        (leToNat (([3, 0, 0, 0, 0, 0, 0, 0] ++ [9] : Bytes).take 8)) = none ∧
    (∀ payload2 : Bytes, 8 < payload2.length →
      leToNat (payload2.take 8) = leToNat (([3, 0, 0, 0, 0, 0, 0, 0] ++ [9] : Bytes).take 8) →
      handle_chunk_data payload2 (Config.mk (some [⟨"d", "/b"⟩])) ⟨"/d", "f", 1, "h"⟩
          (fun _ => List.replicate 32 7) ⟨⟨[(["/b", "f.tmp", "chunk_3"], [9])], []⟩, []⟩ =
        some (some { header := ⟨0x00, 0, PayloadType.Raw, 0, 0⟩, payload := [] },
          ⟨⟨[(["/b", "f.tmp", "chunk_3"], [9])], []⟩, []⟩)) :=
  handle_chunk_data_clears_pending ([3, 0, 0, 0, 0, 0, 0, 0] ++ [9])
    (Config.mk (some [⟨"d", "/b"⟩])) ⟨"/d", "f", 1, "h"⟩
    (fun _ => List.replicate 32 7)
    ⟨⟨[], []⟩, [(3, List.replicate 32 7)]⟩
    (some { header := ⟨0x00, 0, PayloadType.Raw, 0xFF, 0⟩, payload := [] })
    ⟨⟨[(["/b", "f.tmp", "chunk_3"], [9])], []⟩, []⟩
    (by decide) (by decide)

/-- Witness for C9 amended at message id 7 and the concrete empty-table
config. -/
theorem list_handle_request_empty_witness :
    (Config.mk (some [])).rfs = some [] ∧
    list_handle_request 7 (Config.mk (some [])) = some
      { header := { opcode := 0x04, message_id := 7, payload_type := PayloadType.Json,
                    reserved := 0xFF, payload_len := 2 }
        payload := strToBytes "[]" } :=
  ⟨rfl, list_handle_request_empty 7 (Config.mk (some [])) rfl⟩

end Anchr
